import Mathlib

/-!
Shallow embedding of `freeDateFinder.py`, centred on `get_free_intervals`
(lines 32-70 of the source).

Modelling choices:
* Timestamps are integers counting minutes since the epoch 1970-01-01 00:00.
  A calendar date is an integer counting days since 1970-01-01, so the
  `datetime.date()` projection is floor division by 1440 (minutes per day)
  and `datetime.combine(d, t)` is `d * 1440 + t`.
* A busy event is a structure with fields `start` and `stop`; `stop` models
  the Python dict key `end` (`end` is a reserved word in Lean).
* Python's `list.sort(key=lambda event: event['start'])` is a stable sort by
  the `start` field; we embed it as Mathlib's `insertionSort`, which is a
  stable sort for the same relation and therefore computes the same list.
* `timedelta` comparison `gap_end - gap_start >= min_length` is integer
  subtraction and comparison (Python timedeltas may be negative, so the
  subtraction lives in `ℤ`).
-/

/-- Minutes in one day. -/
def minutesPerDay : ℤ := 1440

/-- Model of `datetime.date()`: the calendar day containing a timestamp
(floor division, matching Python day arithmetic). -/
def date (t : ℤ) : ℤ := Int.fdiv t minutesPerDay

/-- Model of `datetime.combine(d, tod)`: timestamp at day `d` and time-of-day `tod`. -/
def combine (d tod : ℤ) : ℤ := d * minutesPerDay + tod

/-- One busy interval, i.e. one element of the `events` list in the source:
a dict with keys `start` and `end` (here `stop`). -/
structure Event where
  start : ℤ
  stop : ℤ
  deriving DecidableEq, Repr

/-- Model of `events.sort(key=lambda event: event['start'])` (source line 37): a stable
sort by ascending `start`. -/
def sortEvents (events : List Event) : List Event :=
  events.insertionSort (fun a b => a.start ≤ b.start)

/-- Source lines 40-47: the candidate gap before the first event, emitted when
the first event starts on/after `start_date` and the gap is long enough. -/
def leadGaps (startDate earliestTime minLength : ℤ) : List Event → List (ℤ × ℤ)
  | [] => []
  | first :: _ =>
    if startDate ≤ date first.start then
      if minLength ≤ first.start - combine (date first.start) earliestTime then
        [(combine (date first.start) earliestTime, first.start)]
      else []
    else []

/-- Source lines 50-59: the loop over `i in range(1, len(events))`, emitting
the gap from `events[i-1]['end']` to `events[i]['start']` when the guards on
lines 56 and 58 hold. -/
def interiorGaps (startDate endDate minLength : ℤ) : List Event → List (ℤ × ℤ)
  | a :: b :: rest =>
    (if startDate ≤ date b.start ∧ date a.stop ≤ endDate ∧
        minLength ≤ b.start - a.stop then
      [(a.stop, b.start)]
    else []) ++ interiorGaps startDate endDate minLength (b :: rest)
  | _ => []

/-- Source lines 62-68: the candidate gap after the last event, emitted when
the last event ends on/before `end_date` and the gap is long enough. -/
def trailGaps (endDate latestTime minLength : ℤ) (events : List Event) :
    List (ℤ × ℤ) :=
  match events.getLast? with
  | none => []
  | some last =>
    if date last.stop ≤ endDate then
      if minLength ≤ combine (date last.stop) latestTime - last.stop then
        [(last.stop, combine (date last.stop) latestTime)]
      else []
    else []

/-- Model of `get_free_intervals` (source lines 32-70): sort the events by `start`,
then append the leading gap, the interior gaps and the trailing gap in the
order the Python code appends them to `free_intervals`. -/
def getFreeIntervals (events : List Event)
    (startDate endDate earliestTime latestTime minLength : ℤ) :
    List (ℤ × ℤ) :=
  leadGaps startDate earliestTime minLength (sortEvents events) ++
    interiorGaps startDate endDate minLength (sortEvents events) ++
    trailGaps endDate latestTime minLength (sortEvents events)

/-! ### Basic facts about the sort -/

lemma sortEvents_perm (l : List Event) : (sortEvents l).Perm l :=
  List.perm_insertionSort _ l

lemma sortEvents_sorted (l : List Event) :
    (sortEvents l).Pairwise (fun a b => a.start ≤ b.start) := by
  haveI : IsTotal Event (fun a b => a.start ≤ b.start) := ⟨fun a b => le_total _ _⟩
  haveI : IsTrans Event (fun a b => a.start ≤ b.start) :=
    ⟨fun _ _ _ h h' => le_trans h h'⟩
  exact List.sorted_insertionSort _ l

/-! ### Every emitted pair passes the `min_length` guard -/

lemma leadGaps_minLen {sd et ml : ℤ} {l : List Event} {p : ℤ × ℤ}
    (h : p ∈ leadGaps sd et ml l) : ml ≤ p.2 - p.1 := by
  cases l with
  | nil => simp [leadGaps] at h
  | cons a t =>
    by_cases h1 : sd ≤ date a.start
    · by_cases h2 : ml ≤ a.start - combine (date a.start) et
      · simp [leadGaps, h1, h2] at h
        subst h
        exact h2
      · simp [leadGaps, h1, h2] at h
    · simp [leadGaps, h1] at h

lemma interiorGaps_minLen {sd ed ml : ℤ} :
    ∀ {l : List Event} {p : ℤ × ℤ}, p ∈ interiorGaps sd ed ml l → ml ≤ p.2 - p.1
  | [], _, h => by simp [interiorGaps] at h
  | [a], _, h => by simp [interiorGaps] at h
  | a :: b :: rest, p, h => by
    unfold interiorGaps at h
    rw [List.mem_append] at h
    rcases h with h | h
    · by_cases hc : sd ≤ date b.start ∧ date a.stop ≤ ed ∧ ml ≤ b.start - a.stop
      · simp [hc] at h
        subst h
        exact hc.2.2
      · simp [hc] at h
    · exact interiorGaps_minLen h

lemma trailGaps_minLen {ed lt ml : ℤ} {l : List Event} {p : ℤ × ℤ}
    (h : p ∈ trailGaps ed lt ml l) : ml ≤ p.2 - p.1 := by
  unfold trailGaps at h
  rcases hl : l.getLast? with _ | last <;> rw [hl] at h
  · simp at h
  · by_cases h1 : date last.stop ≤ ed
    · by_cases h2 : ml ≤ combine (date last.stop) lt - last.stop
      · simp [h1, h2] at h
        subst h
        exact h2
      · simp [h1, h2] at h
    · simp [h1] at h

lemma getFreeIntervals_minLen {events : List Event} {sd ed et lt ml : ℤ}
    {p : ℤ × ℤ} (h : p ∈ getFreeIntervals events sd ed et lt ml) :
    ml ≤ p.2 - p.1 := by
  unfold getFreeIntervals at h
  rcases List.mem_append.1 h with h | h
  · rcases List.mem_append.1 h with h | h
    · exact leadGaps_minLen h
    · exact interiorGaps_minLen h
  · exact trailGaps_minLen h

/-- C3: every pair emitted by `get_free_intervals` satisfies
`end - start >= min_length`; in particular when `min_length > 0` no
zero-length or negative-duration interval is ever emitted. -/
theorem c3_emitted_meets_min_length (events : List Event)
    (sd ed et lt ml : ℤ) (p : ℤ × ℤ)
    (h : p ∈ getFreeIntervals events sd ed et lt ml) :
    ml ≤ p.2 - p.1 ∧ (0 < ml → p.1 < p.2) := by
  refine ⟨getFreeIntervals_minLen h, fun hml => ?_⟩
  have := getFreeIntervals_minLen h
  omega

/-- Witness for C3 at a concrete input: the run of §8's concrete scenario
emits `(08:00, 09:00)` on 2024-03-12 and that pair is at least 30 minutes
long. -/
theorem c3_witness :
    (combine 19794 480, combine 19794 540) ∈
        getFreeIntervals [⟨combine 19794 540, combine 19794 600⟩]
          19794 19794 480 1080 30 ∧
      (30 : ℤ) ≤ combine 19794 540 - combine 19794 480 ∧
      combine 19794 480 < combine 19794 540 :=
  ⟨by decide,
   (c3_emitted_meets_min_length [⟨combine 19794 540, combine 19794 600⟩]
      19794 19794 480 1080 30 (combine 19794 480, combine 19794 540)
      (by decide)).1,
   (c3_emitted_meets_min_length [⟨combine 19794 540, combine 19794 600⟩]
      19794 19794 480 1080 30 (combine 19794 480, combine 19794 540)
      (by decide)).2 (by decide)⟩

/-- C5: on an empty busy-interval collection the engine returns the empty
sequence for every availability window; it never synthesizes a
whole-window gap. -/
theorem c5_empty_input (sd ed et lt ml : ℤ) :
    getFreeIntervals [] sd ed et lt ml = [] := rfl

/-- C9: the concrete scenario of §8. Day 19794 (days since 1970-01-01) is
2024-03-12; the single busy interval 09:00-10:00 with window 08:00-18:00
and `min_length` 30 min yields exactly (08:00, 09:00) then (10:00, 18:00). -/
theorem c9_concrete_scenario :
    getFreeIntervals [⟨combine 19794 540, combine 19794 600⟩]
        19794 19794 480 1080 30 =
      [(combine 19794 480, combine 19794 540),
       (combine 19794 600, combine 19794 1080)] := by decide

/-- C10: emitted intervals can lie entirely outside
`[start_date, end_date]`: with the window restricted to day 0, a busy
interval on day 100 makes the engine emit a gap whose start and end dates
are both strictly after `end_date`. -/
theorem c10_emits_outside_window :
    getFreeIntervals [⟨combine 100 600, combine 100 660⟩] 0 0 480 1080 30 =
        [(combine 100 480, combine 100 600)] ∧
      (0 : ℤ) < date (combine 100 480) ∧ (0 : ℤ) < date (combine 100 600) := by
  decide

/-- C1 fails as stated: two equal-`start` busy intervals with different
ends are kept in input order by the stable sort, so the two orders of the
same multiset give different trailing gaps. -/
theorem c1_counterexample :
    List.Perm [(⟨540, 600⟩ : Event), ⟨540, 660⟩] [⟨540, 660⟩, ⟨540, 600⟩] ∧
      getFreeIntervals [⟨540, 600⟩, ⟨540, 660⟩] 0 0 480 1080 30 ≠
        getFreeIntervals [⟨540, 660⟩, ⟨540, 600⟩] 0 0 480 1080 30 := by
  decide

/-! ### Sorted permutations with pairwise-distinct starts coincide -/

lemma sorted_perm_eq_of_nodup_start :
    ∀ {l₁ l₂ : List Event}, l₁.Perm l₂ →
      l₁.Pairwise (fun a b => a.start ≤ b.start) →
      l₂.Pairwise (fun a b => a.start ≤ b.start) →
      (l₁.map Event.start).Nodup → l₁ = l₂
  | [], l₂, hp, _, _, _ => (hp.symm.eq_nil).symm
  | a :: t₁, [], hp, _, _, _ => by simpa using hp.eq_nil
  | a :: t₁, b :: t₂, hp, hs₁, hs₂, hnd => by
    have hab : a ∈ b :: t₂ := hp.subset (List.mem_cons_self a t₁)
    have hba : b ∈ a :: t₁ := hp.symm.subset (List.mem_cons_self b t₂)
    have h1 : a.start = b.start := by
      rcases List.mem_cons.1 hab with h | h
      · rw [h]
      · rcases List.mem_cons.1 hba with h' | h'
        · rw [h']
        · exact le_antisymm (List.rel_of_pairwise_cons hs₁ h')
            (List.rel_of_pairwise_cons hs₂ h)
    have hb : b = a := by
      rcases List.mem_cons.1 hba with h' | h'
      · exact h'
      · exfalso
        have : a.start ∈ t₁.map Event.start := by
          rw [h1]
          exact List.mem_map_of_mem Event.start h'
        exact (List.nodup_cons.1 hnd).1 this
    subst hb
    have ht : t₁ = t₂ :=
      sorted_perm_eq_of_nodup_start hp.cons_inv
        (List.pairwise_cons.1 hs₁).2 (List.pairwise_cons.1 hs₂).2
        (List.nodup_cons.1 hnd).2
    rw [ht]

/-- C1 (amended): when the busy intervals have pairwise-distinct `start`
timestamps, any two permutations of the same multiset give identical output.
(As stated over all multisets the claim is false: see the counterexample,
where two equal-start intervals change the trailing gap.) -/
theorem c1_perm_invariant_on_distinct_starts
    (l₁ l₂ : List Event) (sd ed et lt ml : ℤ)
    (hp : l₁.Perm l₂) (hnd : (l₁.map Event.start).Nodup) :
    getFreeIntervals l₁ sd ed et lt ml = getFreeIntervals l₂ sd ed et lt ml := by
  have hs : sortEvents l₁ = sortEvents l₂ := by
    apply sorted_perm_eq_of_nodup_start
    · exact (sortEvents_perm l₁).trans (hp.trans (sortEvents_perm l₂).symm)
    · exact sortEvents_sorted l₁
    · exact sortEvents_sorted l₂
    · exact (((sortEvents_perm l₁).map Event.start).symm).nodup hnd
  unfold getFreeIntervals
  rw [hs]

/-- Witness for the amended C1: two orderings of the same two
distinct-start busy intervals produce the same output. -/
theorem c1_witness :
    List.Perm [(⟨600, 660⟩ : Event), ⟨540, 570⟩] [⟨540, 570⟩, ⟨600, 660⟩] ∧
      (List.map Event.start [(⟨600, 660⟩ : Event), ⟨540, 570⟩]).Nodup ∧
      getFreeIntervals [⟨600, 660⟩, ⟨540, 570⟩] 0 0 480 1080 30 =
        getFreeIntervals [⟨540, 570⟩, ⟨600, 660⟩] 0 0 480 1080 30 :=
  ⟨by decide, by decide,
   c1_perm_invariant_on_distinct_starts
     [⟨600, 660⟩, ⟨540, 570⟩] [⟨540, 570⟩, ⟨600, 660⟩]
     0 0 480 1080 30 (by decide) (by decide)⟩

/-! ### The interior loop emits exactly the guarded consecutive pairs -/

lemma interiorGaps_eq_filterMap (sd ed ml : ℤ) :
    ∀ l : List Event, interiorGaps sd ed ml l =
      (l.zip l.tail).filterMap (fun q =>
        if sd ≤ date q.2.start ∧ date q.1.stop ≤ ed ∧
            ml ≤ q.2.start - q.1.stop then
          some (q.1.stop, q.2.start)
        else none)
  | [] => by simp [interiorGaps]
  | [a] => by simp [interiorGaps]
  | a :: b :: rest => by
    unfold interiorGaps
    rw [interiorGaps_eq_filterMap sd ed ml (b :: rest)]
    show _ = List.filterMap _ ((a, b) :: ((b :: rest).zip rest))
    rw [List.filterMap_cons]
    by_cases hc : sd ≤ date b.start ∧ date a.stop ≤ ed ∧ ml ≤ b.start - a.stop <;>
      simp [hc]

/-- C4: over the sorted event list, the interior loop emits, for each
consecutive pair, exactly the pair `(previous.end, current.start)` of raw
timestamps (no re-clipping to the daily bounds), and does so exactly when
`current.start` is dated on/after `start_date`, `previous.end` is dated
on/before `end_date`, and the gap is at least `min_length` long. -/
theorem c4_interior_gaps_exact (events : List Event) (sd ed et lt ml : ℤ) :
    getFreeIntervals events sd ed et lt ml =
      leadGaps sd et ml (sortEvents events) ++
        ((sortEvents events).zip (sortEvents events).tail).filterMap
          (fun q =>
            if sd ≤ date q.2.start ∧ date q.1.stop ≤ ed ∧
                ml ≤ q.2.start - q.1.stop then
              some (q.1.stop, q.2.start)
            else none) ++
        trailGaps ed lt ml (sortEvents events) := by
  unfold getFreeIntervals
  rw [interiorGaps_eq_filterMap]

/-! ### Ordering of the emitted intervals -/

lemma mem_of_getLast? {l : List Event} {a : Event} (h : l.getLast? = some a) :
    a ∈ l := by
  rw [List.getLast?_eq_getElem?] at h
  exact List.getElem?_mem h

lemma mem_leadGaps {sd et ml : ℤ} {l : List Event} {p : ℤ × ℤ}
    (h : p ∈ leadGaps sd et ml l) :
    ∃ first t, l = first :: t ∧ sd ≤ date first.start ∧
      ml ≤ first.start - combine (date first.start) et ∧
      p = (combine (date first.start) et, first.start) := by
  cases l with
  | nil => simp [leadGaps] at h
  | cons a t =>
    by_cases h1 : sd ≤ date a.start
    · by_cases h2 : ml ≤ a.start - combine (date a.start) et
      · simp [leadGaps, h1, h2] at h
        exact ⟨a, t, rfl, h1, h2, h⟩
      · simp [leadGaps, h1, h2] at h
    · simp [leadGaps, h1] at h

lemma mem_trailGaps {ed lt ml : ℤ} {l : List Event} {p : ℤ × ℤ}
    (h : p ∈ trailGaps ed lt ml l) :
    ∃ last, l.getLast? = some last ∧ date last.stop ≤ ed ∧
      ml ≤ combine (date last.stop) lt - last.stop ∧
      p = (last.stop, combine (date last.stop) lt) := by
  unfold trailGaps at h
  rcases hl : l.getLast? with _ | last <;> rw [hl] at h
  · simp at h
  · by_cases h1 : date last.stop ≤ ed
    · by_cases h2 : ml ≤ combine (date last.stop) lt - last.stop
      · simp [h1, h2] at h
        exact ⟨last, rfl, h1, h2, h⟩
      · simp [h1, h2] at h
    · simp [h1] at h

lemma interiorGaps_lb {sd ed ml : ℤ} :
    ∀ (a : Event) (t : List Event),
      (a :: t).Pairwise (fun x y => x.start ≤ y.start) →
      (∀ e ∈ a :: t, e.start ≤ e.stop) →
      ∀ p ∈ interiorGaps sd ed ml (a :: t), a.start ≤ p.1
  | a, [], _, _, p, h => by simp [interiorGaps] at h
  | a, b :: t, hs, hw, p, h => by
    unfold interiorGaps at h
    rw [List.mem_append] at h
    rcases h with h | h
    · by_cases hc : sd ≤ date b.start ∧ date a.stop ≤ ed ∧ ml ≤ b.start - a.stop
      · simp [hc] at h
        subst h
        exact hw a (List.mem_cons_self a (b :: t))
      · simp [hc] at h
    · have hb := interiorGaps_lb b t (List.pairwise_cons.1 hs).2
        (fun e he => hw e (List.mem_cons_of_mem a he)) p h
      have hab : a.start ≤ b.start :=
        List.rel_of_pairwise_cons hs (List.mem_cons_self b t)
      exact le_trans hab hb

lemma interiorGaps_ub {sd ed ml : ℤ} :
    ∀ (l : List Event) (last : Event),
      l.Pairwise (fun x y => x.start ≤ y.start) →
      l.getLast? = some last →
      ∀ p ∈ interiorGaps sd ed ml l, p.2 ≤ last.start
  | [], _, _, _, p, h => by simp [interiorGaps] at h
  | [a], _, _, _, p, h => by simp [interiorGaps] at h
  | a :: b :: t, last, hs, hl, p, h => by
    have hl' : (b :: t).getLast? = some last := by
      rw [← hl]
      exact List.getLast?_cons_cons.symm
    unfold interiorGaps at h
    rw [List.mem_append] at h
    rcases h with h | h
    · by_cases hc : sd ≤ date b.start ∧ date a.stop ≤ ed ∧ ml ≤ b.start - a.stop
      · simp [hc] at h
        subst h
        show b.start ≤ last.start
        rcases List.mem_cons.1 (mem_of_getLast? hl') with h' | h'
        · rw [h']
        · exact List.rel_of_pairwise_cons (List.pairwise_cons.1 hs).2 h'
      · simp [hc] at h
    · exact interiorGaps_ub (b :: t) last (List.pairwise_cons.1 hs).2 hl' p h

lemma interiorGaps_pairwise {sd ed ml : ℤ} (hml : 0 < ml) :
    ∀ l : List Event,
      l.Pairwise (fun x y => x.start ≤ y.start) →
      (∀ e ∈ l, e.start ≤ e.stop) →
      (interiorGaps sd ed ml l).Pairwise (fun p q => p.2 ≤ q.1 ∧ p.1 < q.1)
  | [], _, _ => by simp [interiorGaps]
  | [a], _, _ => by simp [interiorGaps]
  | a :: b :: t, hs, hw => by
    unfold interiorGaps
    rw [List.pairwise_append]
    refine ⟨?_, interiorGaps_pairwise hml (b :: t) (List.pairwise_cons.1 hs).2
      (fun e he => hw e (List.mem_cons_of_mem a he)), ?_⟩
    · by_cases hc : sd ≤ date b.start ∧ date a.stop ≤ ed ∧ ml ≤ b.start - a.stop <;>
        simp [hc]
    · intro p hp q hq
      by_cases hc : sd ≤ date b.start ∧ date a.stop ≤ ed ∧ ml ≤ b.start - a.stop
      · simp [hc] at hp
        subst hp
        have h1 : b.start ≤ q.1 :=
          interiorGaps_lb b t (List.pairwise_cons.1 hs).2
            (fun e he => hw e (List.mem_cons_of_mem a he)) q hq
        have h2 : a.stop < b.start := by
          have := hc.2.2
          omega
        exact ⟨h1, lt_of_lt_of_le h2 h1⟩
      · simp [hc] at hp

lemma pairwise_of_length_le_one {α : Type} {R : α → α → Prop} {l : List α}
    (h : l.length ≤ 1) : l.Pairwise R := by
  cases l with
  | nil => simp
  | cons a t =>
    cases t with
    | nil => simp
    | cons b t' => simp at h

lemma leadGaps_length_le {sd et ml : ℤ} {l : List Event} :
    (leadGaps sd et ml l).length ≤ 1 := by
  cases l with
  | nil => simp [leadGaps]
  | cons a t =>
    by_cases h1 : sd ≤ date a.start
    · by_cases h2 : ml ≤ a.start - combine (date a.start) et <;>
        simp [leadGaps, h1, h2]
    · simp [leadGaps, h1]

lemma trailGaps_length_le {ed lt ml : ℤ} {l : List Event} :
    (trailGaps ed lt ml l).length ≤ 1 := by
  unfold trailGaps
  rcases l.getLast? with _ | last
  · simp
  · by_cases h1 : date last.stop ≤ ed
    · by_cases h2 : ml ≤ combine (date last.stop) lt - last.stop <;>
        simp [h1, h2]
    · simp [h1]

/-- C2: when every busy interval satisfies `end >= start` and
`min_length > 0`, the emitted sequence is pairwise non-overlapping
(each interval ends no later than the next begins) and strictly ordered
by ascending start. -/
theorem c2_output_ordered_disjoint (events : List Event) (sd ed et lt ml : ℤ)
    (hml : 0 < ml) (hw : ∀ e ∈ events, e.start ≤ e.stop) :
    (getFreeIntervals events sd ed et lt ml).Pairwise
      (fun p q => p.2 ≤ q.1 ∧ p.1 < q.1) := by
  have hsort := sortEvents_sorted events
  have hwl : ∀ e ∈ sortEvents events, e.start ≤ e.stop :=
    fun e he => hw e ((sortEvents_perm events).subset he)
  unfold getFreeIntervals
  rw [List.pairwise_append]
  refine ⟨?_, pairwise_of_length_le_one trailGaps_length_le, ?_⟩
  · rw [List.pairwise_append]
    refine ⟨pairwise_of_length_le_one leadGaps_length_le,
      interiorGaps_pairwise hml _ hsort hwl, ?_⟩
    intro p hp q hq
    obtain ⟨first, t, hl, _, hgap, hpe⟩ := mem_leadGaps hp
    subst hpe
    have hsort' := hsort
    have hwl' := hwl
    rw [hl] at hsort' hwl' hq
    have h1 : first.start ≤ q.1 := interiorGaps_lb first t hsort' hwl' q hq
    refine ⟨h1, ?_⟩
    have h2 : combine (date first.start) et < first.start := by omega
    exact lt_of_lt_of_le h2 h1
  · intro p hp q hq
    obtain ⟨last, hlast, _, hgap, hqe⟩ := mem_trailGaps hq
    subst hqe
    have hlaststop : last.start ≤ last.stop := hwl last (mem_of_getLast? hlast)
    rcases List.mem_append.1 hp with hp | hp
    · obtain ⟨first, t, hl, _, hgap', hpe⟩ := mem_leadGaps hp
      subst hpe
      have hfl : first.start ≤ last.start := by
        have hm : last ∈ first :: t := by
          rw [← hl]
          exact mem_of_getLast? hlast
        rcases List.mem_cons.1 hm with h' | h'
        · rw [h']
        · have hsort' := hsort
          rw [hl] at hsort'
          exact List.rel_of_pairwise_cons hsort' h'
      refine ⟨le_trans hfl hlaststop, ?_⟩
      have h2 : combine (date first.start) et < first.start := by omega
      exact lt_of_lt_of_le h2 (le_trans hfl hlaststop)
    · have hub : p.2 ≤ last.start := interiorGaps_ub _ last hsort hlast p hp
      have hlen : ml ≤ p.2 - p.1 := interiorGaps_minLen hp
      refine ⟨le_trans hub hlaststop, ?_⟩
      have h2 : p.1 < p.2 := by omega
      exact lt_of_lt_of_le h2 (le_trans hub hlaststop)

/-- Witness for C2 at a concrete input: the §8 scenario has
`min_length = 30 > 0`, its one busy interval is well-formed, and the
output is pairwise disjoint and strictly ordered. -/
theorem c2_witness :
    (0 : ℤ) < 30 ∧
      (getFreeIntervals [⟨combine 19794 540, combine 19794 600⟩]
          19794 19794 480 1080 30).Pairwise
        (fun p q => p.2 ≤ q.1 ∧ p.1 < q.1) :=
  ⟨by decide,
   c2_output_ordered_disjoint [⟨combine 19794 540, combine 19794 600⟩]
     19794 19794 480 1080 30 (by decide) (by decide)⟩

/-- C7: when the sorted collection is non-empty and its first interval
starts on a date on/after `start_date`, the leading candidate gap from
`combine(first.start.date, earliest_time)` to `first.start` is emitted
exactly when it is at least `min_length` long; and (second conjunct) a
single busy interval starting exactly at `combine(start_date,
earliest_time)` produces no leading gap when `min_length > 0`, its
candidate gap being zero-length. -/
theorem c7_leading_gap :
    (∀ (events : List Event) (sd ed et lt ml : ℤ) (first : Event)
        (rest : List Event),
        sortEvents events = first :: rest →
        sd ≤ date first.start →
        ((combine (date first.start) et, first.start) ∈
            getFreeIntervals events sd ed et lt ml ↔
          ml ≤ first.start - combine (date first.start) et)) ∧
    (∀ sd ed et lt ml e : ℤ, 0 < ml → 0 ≤ et → et < minutesPerDay →
        (combine (date (combine sd et)) et, combine sd et) ∉
          getFreeIntervals [⟨combine sd et, e⟩] sd ed et lt ml) := by
  constructor
  · intro events sd ed et lt ml first rest hl hsd
    constructor
    · intro hmem
      exact getFreeIntervals_minLen hmem
    · intro hlen
      unfold getFreeIntervals
      rw [hl]
      apply List.mem_append_left
      apply List.mem_append_left
      simp [leadGaps, hsd, hlen]
  · intro sd ed et lt ml e hml het0 het1 hmem
    have hd : date (combine sd et) = sd := by
      unfold date combine minutesPerDay
      unfold minutesPerDay at het1
      rw [Int.fdiv_eq_ediv _ (by norm_num)]
      rw [add_comm, Int.add_mul_ediv_right _ _ (by norm_num : (1440 : ℤ) ≠ 0)]
      rw [Int.ediv_eq_zero_of_lt het0 het1]
      rw [zero_add]
    have hlen := getFreeIntervals_minLen hmem
    rw [hd] at hlen
    simp at hlen
    omega

/-- Witness for C7: both conjuncts applied at concrete inputs — the §8-style
single interval 09:00-10:00 on day 0 for the emission criterion, and an
interval starting exactly at `combine(0, 08:00)` for the no-leading-gap
boundary case. -/
theorem c7_witness :
    ((combine (date (combine 0 540)) 480, combine 0 540) ∈
        getFreeIntervals [⟨combine 0 540, combine 0 600⟩] 0 0 480 1080 30 ↔
      (30 : ℤ) ≤ combine 0 540 - combine (date (combine 0 540)) 480) ∧
      (combine (date (combine 0 480)) 480, combine 0 480) ∉
        getFreeIntervals [⟨combine 0 480, combine 0 600⟩] 0 0 480 1080 30 :=
  ⟨c7_leading_gap.1 [⟨combine 0 540, combine 0 600⟩] 0 0 480 1080 30
     ⟨combine 0 540, combine 0 600⟩ [] (by decide) (by decide),
   c7_leading_gap.2 0 0 480 1080 30 (combine 0 600) (by decide) (by decide)
     (by decide)⟩

/-- C8: when the sorted collection is non-empty and its last interval ends
on a date on/before `end_date`, the trailing candidate gap from
`last.end` to `combine(last.end.date, latest_time)` is emitted exactly
when it is at least `min_length` long. -/
theorem c8_trailing_gap (events : List Event) (sd ed et lt ml : ℤ)
    (last : Event) (hl : (sortEvents events).getLast? = some last)
    (hed : date last.stop ≤ ed) :
    (last.stop, combine (date last.stop) lt) ∈
        getFreeIntervals events sd ed et lt ml ↔
      ml ≤ combine (date last.stop) lt - last.stop := by
  constructor
  · intro hmem
    exact getFreeIntervals_minLen hmem
  · intro hlen
    unfold getFreeIntervals
    apply List.mem_append_right
    unfold trailGaps
    rw [hl]
    simp [hed, hlen]

/-- Witness for C8: the trailing gap of the §8 scenario (10:00 to 18:00 on
day 19794) is emitted, via the criterion applied at that concrete input. -/
theorem c8_witness :
    (combine 19794 600, combine (date (combine 19794 600)) 1080) ∈
        getFreeIntervals [⟨combine 19794 540, combine 19794 600⟩]
          19794 19794 480 1080 30 ↔
      (30 : ℤ) ≤ combine (date (combine 19794 600)) 1080 - combine 19794 600 :=
  c8_trailing_gap [⟨combine 19794 540, combine 19794 600⟩]
    19794 19794 480 1080 30 ⟨combine 19794 540, combine 19794 600⟩
    (by decide) (by decide)

/-! ### The engine never raises: fallible-indexing model -/

/-- The loop of source lines 50-59 with the accesses `events[i-1]` and
`events[i]` modelled as fallible lookups; `none` models an uncaught
`IndexError`. -/
def interGo (evs : List Event) (sd ed ml : ℤ) :
    List ℕ → List (ℤ × ℤ) → Option (List (ℤ × ℤ))
  | [], acc => some acc
  | i :: is, acc =>
    match evs[i - 1]?, evs[i]? with
    | some prev, some curr =>
      if sd ≤ date curr.start ∧ date prev.stop ≤ ed ∧
          ml ≤ curr.start - prev.stop then
        interGo evs sd ed ml is (acc ++ [(prev.stop, curr.start)])
      else interGo evs sd ed ml is acc
    | _, _ => none

/-- Source lines 40-47 with the access `events[0]` modelled as a fallible
lookup, guarded by the `if events:` check. -/
def leadGapsChecked (sd et ml : ℤ) (evs : List Event) :
    Option (List (ℤ × ℤ)) :=
  if evs.isEmpty then some [] else
    match evs[0]? with
    | none => none
    | some first =>
      some (if sd ≤ date first.start then
          if ml ≤ first.start - combine (date first.start) et then
            [(combine (date first.start) et, first.start)]
          else []
        else [])

/-- Source lines 62-68 with the access `events[-1]` modelled as a fallible
lookup at index `len - 1`, guarded by the `if events:` check. -/
def trailGapsChecked (ed lt ml : ℤ) (evs : List Event) :
    Option (List (ℤ × ℤ)) :=
  if evs.isEmpty then some [] else
    match evs[evs.length - 1]? with
    | none => none
    | some last =>
      some (if date last.stop ≤ ed then
          if ml ≤ combine (date last.stop) lt - last.stop then
            [(last.stop, combine (date last.stop) lt)]
          else []
        else [])

/-- Model of `get_free_intervals` with every list indexing operation fallible; a
`none` result models the function raising instead of returning. -/
def getFreeIntervalsChecked (events : List Event) (sd ed et lt ml : ℤ) :
    Option (List (ℤ × ℤ)) :=
  match leadGapsChecked sd et ml (sortEvents events),
      interGo (sortEvents events) sd ed ml
        (List.range' 1 ((sortEvents events).length - 1)) [],
      trailGapsChecked ed lt ml (sortEvents events) with
  | some a, some b, some c => some (a ++ b ++ c)
  | _, _, _ => none

lemma interGo_shift (sd ed ml : ℤ) (a : Event) (l : List Event) :
    ∀ (is : List ℕ) (acc : List (ℤ × ℤ)), (∀ i ∈ is, 1 ≤ i) →
      interGo (a :: l) sd ed ml (is.map (fun i => i + 1)) acc =
        interGo l sd ed ml is acc := by
  intro is
  induction is with
  | nil =>
    intro acc _
    rfl
  | cons i is ih =>
    intro acc h
    have hi : 1 ≤ i := h i (List.mem_cons_self i is)
    obtain ⟨j, rfl⟩ : ∃ j, i = j + 1 := ⟨i - 1, by omega⟩
    show interGo (a :: l) sd ed ml ((j + 1 + 1) :: is.map (fun i => i + 1))
        acc = interGo l sd ed ml ((j + 1) :: is) acc
    unfold interGo
    simp only [Nat.add_sub_cancel, List.getElem?_cons_succ]
    cases l[j]? with
    | none => rfl
    | some prev =>
      cases l[j + 1]? with
      | none => rfl
      | some curr =>
        dsimp only
        by_cases hc : sd ≤ date curr.start ∧ date prev.stop ≤ ed ∧
            ml ≤ curr.start - prev.stop
        · rw [if_pos hc, if_pos hc]
          exact ih _ (fun i hi' => h i (List.mem_cons_of_mem _ hi'))
        · rw [if_neg hc, if_neg hc]
          exact ih _ (fun i hi' => h i (List.mem_cons_of_mem _ hi'))

lemma interiorGaps_cons_cons (sd ed ml : ℤ) (a b : Event) (rest : List Event) :
    interiorGaps sd ed ml (a :: b :: rest) =
      (if sd ≤ date b.start ∧ date a.stop ≤ ed ∧
          ml ≤ b.start - a.stop then
        [(a.stop, b.start)]
      else []) ++ interiorGaps sd ed ml (b :: rest) := rfl

lemma range'_two_eq_map (n : ℕ) :
    List.range' 2 n = (List.range' 1 n).map (fun i => i + 1) := by
  rw [← List.map_add_range' 1 1 n 1]
  exact (List.map_congr_left (fun i _ => Nat.add_comm 1 i))

lemma interGo_spec (sd ed ml : ℤ) :
    ∀ (t : List Event) (a : Event) (acc : List (ℤ × ℤ)),
      interGo (a :: t) sd ed ml (List.range' 1 t.length) acc =
        some (acc ++ interiorGaps sd ed ml (a :: t)) := by
  intro t
  induction t with
  | nil =>
    intro a acc
    simp [interGo, interiorGaps]
  | cons b t ih =>
    intro a acc
    show interGo (a :: b :: t) sd ed ml (List.range' 1 (t.length + 1)) acc = _
    rw [List.range'_succ]
    unfold interGo
    simp only [List.getElem?_cons_succ, List.getElem?_cons_zero, Nat.sub_self]
    have hshift : ∀ acc' : List (ℤ × ℤ),
        interGo (a :: b :: t) sd ed ml (List.range' (1 + 1) t.length) acc' =
          interGo (b :: t) sd ed ml (List.range' 1 t.length) acc' := by
      intro acc'
      have h2 : (1 : ℕ) + 1 = 2 := rfl
      rw [h2, range'_two_eq_map]
      exact interGo_shift sd ed ml a (b :: t) (List.range' 1 t.length) acc'
        (fun i hi => by
          obtain ⟨k, _, rfl⟩ := List.mem_range'.1 hi
          omega)
    by_cases hc : sd ≤ date b.start ∧ date a.stop ≤ ed ∧ ml ≤ b.start - a.stop
    · rw [if_pos hc, hshift, ih b (acc ++ [(a.stop, b.start)])]
      rw [interiorGaps_cons_cons, if_pos hc]
      simp
    · rw [if_neg hc, hshift, ih b acc]
      rw [interiorGaps_cons_cons, if_neg hc]
      simp

lemma interGo_eq (sd ed ml : ℤ) (l : List Event) :
    interGo l sd ed ml (List.range' 1 (l.length - 1)) [] =
      some (interiorGaps sd ed ml l) := by
  cases l with
  | nil => simp [interGo, interiorGaps]
  | cons a t =>
    show interGo (a :: t) sd ed ml (List.range' 1 t.length) [] = _
    rw [interGo_spec sd ed ml t a []]
    simp

lemma leadGapsChecked_eq (sd et ml : ℤ) (l : List Event) :
    leadGapsChecked sd et ml l = some (leadGaps sd et ml l) := by
  cases l with
  | nil => rfl
  | cons a t => simp [leadGapsChecked, leadGaps]

lemma trailGapsChecked_eq (ed lt ml : ℤ) (l : List Event) :
    trailGapsChecked ed lt ml l = some (trailGaps ed lt ml l) := by
  cases l with
  | nil => rfl
  | cons a t =>
    unfold trailGapsChecked trailGaps
    rw [List.getLast?_eq_getElem?]
    simp

/-- C6: for every input collection and every combination of window
parameters — including malformed ones — the fallible-indexing model of
`get_free_intervals` returns `some` of the plain result: every list access
is in bounds, so the function always terminates normally and its
`IndexError` branch is unreachable. -/
theorem c6_never_raises (events : List Event) (sd ed et lt ml : ℤ) :
    getFreeIntervalsChecked events sd ed et lt ml =
      some (getFreeIntervals events sd ed et lt ml) := by
  unfold getFreeIntervalsChecked getFreeIntervals
  rw [leadGapsChecked_eq, interGo_eq, trailGapsChecked_eq]
